import Mathlib

/-!
Shallow embedding of the Intcode interpreter of `src/day_17/src/intcode.rs`
(the most complete variant in the repository, and the one the claims cite).

Conventions of the embedding:
* The cell type (the source's 64-bit signed `TapeElem` alias) is modelled as
  `Int`; the claims under study never involve i64 overflow, so plain integer
  arithmetic is used.
* Rust's `%` and `/` on `i64` are truncated division, i.e. `Int.tmod` / `Int.tdiv`.
* The cast `x as usize` on a 64-bit target truncates to 64 bits: `usizeOf`.
* `VecDeque` front/back queues are lists: `pop_front` takes the head,
  `push_back` appends at the end.
* A Rust `panic!` (invalid opcode, invalid parameter mode, invalid write
  target, out-of-bounds slice index, `Vec` capacity overflow) kills the
  machine; every fallible operation therefore returns an `Option`, `none`
  meaning the process dies.
* `Vec::resize(len, 0)` grows by zero-filling.  Growth is guaranteed by the
  Rust allocation layer to die with a capacity-overflow error as soon as the
  requested byte size exceeds `isize::MAX`, i.e. as soon as the element count
  reaches `2^60` (8-byte elements); below that bound the model lets the
  allocation succeed.
-/

namespace Day17

/-- `x as usize` on a 64-bit target: two's-complement truncation to 64 bits. -/
def usizeOf (x : Int) : Nat := (x % (2 : Int) ^ 64).toNat

inductive Operation where
  | Multiply
  | Add
  | Input
  | Output
  | JumpIfTrue
  | JumpIfFalse
  | LessThan
  | Equals
  | SetRelativeBase
  | Break
deriving DecidableEq, Repr

inductive Parameter where
  | PositionAt (idx : Nat)
  | ImmediateAt (idx : Nat)
  | RelativeBy (idx : Nat)
deriving DecidableEq, Repr

structure Instruction where
  op : Operation
  params : List Parameter
deriving DecidableEq, Repr

/-- The machine state (`struct Intcode`). -/
structure Intcode where
  tape : List Int
  tape_init : List Int
  pos : Nat
  current : Option Instruction
  input : List Int
  output : List Int
  finished : Bool
  relative_base : Int
deriving DecidableEq, Repr

namespace Operation

/-- `Operation::num_params`. -/
def num_params : Operation → Nat
  | .Add => 3
  | .Multiply => 3
  | .Input => 1
  | .Output => 1
  | .JumpIfTrue => 2
  | .JumpIfFalse => 2
  | .LessThan => 3
  | .Equals => 3
  | .SetRelativeBase => 1
  | .Break => 0

/-- The loop body of `Operation::decode`: peel `n` decimal digits off `info`,
least-significant first, the digit peeled in round `i` (1-based) giving the
mode of the parameter whose cell sits at `pos + i`. -/
def decodeModes (info : Int) (pos i : Nat) : Nat → Option (List Parameter)
  | 0 => some []
  | n + 1 =>
    let rest := decodeModes (info.tdiv 10) pos (i + 1) n
    if info.tmod 10 = 0 then rest.map (Parameter.PositionAt (pos + i) :: ·)
    else if info.tmod 10 = 1 then rest.map (Parameter.ImmediateAt (pos + i) :: ·)
    else if info.tmod 10 = 2 then rest.map (Parameter.RelativeBy (pos + i) :: ·)
    else none

/-- `Operation::decode` (mode digits of all parameters). -/
def decode (self : Operation) (info : Int) (pos : Nat) : Option (List Parameter) :=
  decodeModes info pos 1 self.num_params

/-- `Operation::advance`. -/
def advance (self : Operation) (pos : Nat) : Nat := pos + self.num_params + 1

end Operation

structure ResultAt where
  pos : Nat
  value : Int
  relative : Bool
deriving DecidableEq, Repr

inductive RawComputeResult where
  | Store (value : Int)
  | JumpTo (address : Nat)
  | Nothing
  | Pause
deriving DecidableEq, Repr

inductive ComputeResult where
  | StoreAt (r : ResultAt)
  | JumpTo (address : Nat)
  | Nothing
  | Pause
deriving DecidableEq, Repr

namespace Intcode

/-- `Intcode::new`. -/
def new (tape : List Int) : Intcode :=
  { tape_init := tape
    tape := tape
    pos := 0
    current := none
    input := []
    output := []
    finished := false
    relative_base := 0 }

/-- `Intcode::get`: reads beyond the current extent yield 0. -/
def get (self : Intcode) (idx : Nat) : Int :=
  if idx ≥ self.tape.length then 0 else self.tape.getD idx 0

/-- `Intcode::get_parameter`. -/
def get_parameter (self : Intcode) (param : Parameter) : Int :=
  match param with
  | .PositionAt idx => self.get (usizeOf (self.get idx))
  | .ImmediateAt idx => self.get idx
  | .RelativeBy idx => self.get (usizeOf (self.get idx + self.relative_base))

/-- `Intcode::is_finished`. -/
def is_finished (self : Intcode) : Bool := self.finished

/-- `Intcode::decode`. -/
def decode (self : Intcode) (pos : Nat) : Option Instruction :=
  let opcode_full : Int := self.get pos
  let op? : Option Operation :=
    if opcode_full.tmod 100 = 1 then some .Add
    else if opcode_full.tmod 100 = 2 then some .Multiply
    else if opcode_full.tmod 100 = 3 then some .Input
    else if opcode_full.tmod 100 = 4 then some .Output
    else if opcode_full.tmod 100 = 5 then some .JumpIfTrue
    else if opcode_full.tmod 100 = 6 then some .JumpIfFalse
    else if opcode_full.tmod 100 = 7 then some .LessThan
    else if opcode_full.tmod 100 = 8 then some .Equals
    else if opcode_full.tmod 100 = 9 then some .SetRelativeBase
    else if opcode_full.tmod 100 = 99 then some .Break
    else none
  match op? with
  | none => none
  | some op =>
    match op.decode (opcode_full.tdiv 100) pos with
    | none => none
    | some params => some ⟨op, params⟩

/-- `Intcode::supply_input`. -/
def supply_input (self : Intcode) (input : Int) : Intcode :=
  { self with input := self.input ++ [input] }

/-- Supplying a whole list of inputs up front through `supply_input`. -/
def supplyAll (self : Intcode) (xs : List Int) : Intcode :=
  xs.foldl Intcode.supply_input self

/-- `Intcode::set` (`self.tape[idx] = value`, a panicking slice index). -/
def set (self : Intcode) (idx : Nat) (value : Int) : Option Intcode :=
  if idx < self.tape.length then
    some { self with tape := self.tape.set idx value }
  else none

/-- `Intcode::get_output`. -/
def get_output (self : Intcode) : Option Int × Intcode :=
  match self.output with
  | [] => (none, self)
  | v :: rest => (some v, { self with output := rest })

/-- `Intcode::output_avail`. -/
def output_avail (self : Intcode) : Bool := self.output.length > 0

/-- `Vec::resize(len, 0)` on the tape.  Truncates when shrinking, zero-extends
when growing; a growth request of `2^60` or more 8-byte elements exceeds
`isize::MAX` bytes and is a guaranteed capacity-overflow death. -/
def resizeTape (tape : List Int) (len : Nat) : Option (List Int) :=
  if len ≤ tape.length then some (tape.take len)
  else if len < 2 ^ 60 then some (tape ++ List.replicate (len - tape.length) 0)
  else none

/-- `Intcode::ensure_len`. -/
def ensure_len (self : Intcode) (len : Nat) : Option Intcode :=
  if len ≥ self.tape.length then
    match resizeTape self.tape len with
    | none => none
    | some tape' => some { self with tape := tape' }
  else some self

/-- `Intcode::store`. -/
def store (self : Intcode) (result : ResultAt) : Option Intcode :=
  let idx_target : Int :=
    self.get result.pos + (if result.relative then self.relative_base else 0)
  match self.ensure_len (usizeOf (idx_target + 1)) with
  | none => none
  | some self' =>
    if usizeOf idx_target < self'.tape.length then
      some { self' with tape := self'.tape.set (usizeOf idx_target) result.value }
    else none

end Intcode

namespace Instruction

/-- First half of `Instruction::compute` (`let value = match self.op {...}`):
resolve the parameters, then produce the raw result, with the machine
threaded through for the side effects (input pop, output push, relative-base
update).  `none` is a `panic!` (`params[i]` out of bounds, or the
`Computing invalid operation` catch-all hit by `Break`). -/
def computeRaw (self : Instruction) (tape : Intcode) : Option (Intcode × RawComputeResult) :=
  let params : List Int := self.params.map tape.get_parameter
  match self.op, params with
  | .Add, p0 :: p1 :: _ => some (tape, .Store (p0 + p1))
  | .Multiply, p0 :: p1 :: _ => some (tape, .Store (p0 * p1))
  | .Input, _ =>
    match tape.input with
    | [] => some (tape, .Pause)
    | value :: restInput => some ({ tape with input := restInput }, .Store value)
  | .JumpIfTrue, p0 :: p1 :: _ =>
    some (tape, if p0 ≠ 0 then .JumpTo (usizeOf p1) else .Nothing)
  | .JumpIfFalse, p0 :: p1 :: _ =>
    some (tape, if p0 = 0 then .JumpTo (usizeOf p1) else .Nothing)
  | .LessThan, p0 :: p1 :: _ =>
    some (tape, if p0 < p1 then .Store 1 else .Store 0)
  | .Equals, p0 :: p1 :: _ =>
    some (tape, if p0 = p1 then .Store 1 else .Store 0)
  | .SetRelativeBase, p0 :: _ =>
    some ({ tape with relative_base := tape.relative_base + p0 }, .Nothing)
  | .Output, p0 :: _ =>
    some ({ tape with output := tape.output ++ [p0] }, .Nothing)
  | _, _ => none

/-- Second half of `Instruction::compute` (`match value {...}`): a `Store`
result looks up the final parameter as its write target; an Immediate final
parameter (or a missing one) is a `panic!`. -/
def finish (self : Instruction) (tape' : Intcode) (raw : RawComputeResult) :
    Option (Intcode × ComputeResult) :=
  match raw with
  | .Nothing => some (tape', .Nothing)
  | .Pause => some (tape', .Pause)
  | .JumpTo address => some (tape', .JumpTo address)
  | .Store value =>
    match self.params.getLast? with
    | some (.PositionAt idx) => some (tape', .StoreAt ⟨idx, value, false⟩)
    | some (.RelativeBy idx) => some (tape', .StoreAt ⟨idx, value, true⟩)
    | _ => none

/-- `Instruction::compute`: the two halves in sequence. -/
def compute (self : Instruction) (tape : Intcode) : Option (Intcode × ComputeResult) :=
  match self.computeRaw tape with
  | none => none
  | some (tape', raw) => self.finish tape' raw

end Instruction

namespace Intcode

/-- The body of `Intcode::step` once the instruction to run is in hand
(decoded fresh or reused from the pending slot). -/
def stepGo (self : Intcode) (instruction : Instruction) : Option (Intcode × Bool) :=
  if instruction.op = .Break then
    some ({ self with finished := true }, false)
  else
    match instruction.compute self with
    | none => none
    | some (self', result) =>
      match result with
      | .Pause => some ({ self' with current := some instruction }, false)
      | .JumpTo address => some ({ self' with pos := address, current := none }, true)
      | .StoreAt result_at =>
        match self'.store result_at with
        | none => none
        | some self'' =>
          some ({ self'' with pos := instruction.op.advance self''.pos, current := none }, true)
      | .Nothing =>
        some ({ self' with pos := instruction.op.advance self'.pos, current := none }, true)

/-- `Intcode::step`.  `some (m, b)` is the post-state together with the
returned `bool` (`true` = keep stepping); `none` is a death of the process. -/
def step (self : Intcode) : Option (Intcode × Bool) :=
  match (match self.current with
         | none => self.decode self.pos
         | some instruction => some instruction) with
  | none => none
  | some instruction => self.stepGo instruction

/-- `Intcode::execute` with an explicit step budget: `some m` exactly when the
`while self.step()` loop exits (Halt or Pause) within `fuel` steps, leaving
machine `m`. -/
def executeFuel : Nat → Intcode → Option Intcode
  | 0, _ => none
  | fuel + 1, self =>
    match self.step with
    | none => none
    | some (self', false) => some self'
    | some (self', true) => executeFuel fuel self'

/-- The pause/resume driving protocol of the claim: call `execute`; whenever it
returns unfinished (Paused), supply exactly one pending input and call
`execute` again.  The step budget is shared across the resumptions; the
sequence of `step`/`supply_input` calls is exactly that of the protocol. -/
def executeResume : Nat → List Int → Intcode → Option Intcode
  | 0, _, _ => none
  | fuel + 1, xs, self =>
    match self.step with
    | none => none
    | some (self', true) => executeResume fuel xs self'
    | some (self', false) =>
      if self'.finished then some self'
      else
        match xs with
        | [] => some self'
        | x :: rest => executeResume fuel rest (self'.supply_input x)

/-- `Intcode::reset`. -/
def reset (self : Intcode) : Intcode :=
  { self with pos := 0, finished := false, tape := self.tape_init }

end Intcode

/-!  Specification-side decoder, written from the words of the spec (§4.2):
operation kind is `w mod 100` looked up in the dispatch table; the mode digit
of the `k`-th operand (0-based, left-to-right) is decimal digit `k` of
`w / 100` counted from the least significant end, i.e.
`(w / 100 / 10^k) mod 10`; digit 0 ↦ Position, 1 ↦ Immediate, 2 ↦ Relative;
any kind outside the table or digit outside `{0,1,2}` fails.  `mod` and `/`
are those of the source language on `i64` (truncated).  The operand of the
`k`-th parameter lives in the cell `pc + 1 + k`. -/

/-- Spec §4.2 dispatch table. -/
def specKind (w : Int) : Option Operation :=
  if w.tmod 100 = 1 then some .Add
  else if w.tmod 100 = 2 then some .Multiply
  else if w.tmod 100 = 3 then some .Input
  else if w.tmod 100 = 4 then some .Output
  else if w.tmod 100 = 5 then some .JumpIfTrue
  else if w.tmod 100 = 6 then some .JumpIfFalse
  else if w.tmod 100 = 7 then some .LessThan
  else if w.tmod 100 = 8 then some .Equals
  else if w.tmod 100 = 9 then some .SetRelativeBase
  else if w.tmod 100 = 99 then some .Break
  else none

/-- Spec §4.2: the addressing-mode digit of the `k`-th operand (0-based). -/
def specModeDigit (w : Int) (k : Nat) : Int :=
  ((w.tdiv 100).tdiv ((10 : Int) ^ k)).tmod 10

/-- Spec §4.2: the `k`-th parameter, from its mode digit (digit 2 behaves as
Relative; the value is only consulted when the digit is in `{0,1,2}`). -/
def specParameter (w : Int) (pos k : Nat) : Parameter :=
  if specModeDigit w k = 0 then .PositionAt (pos + 1 + k)
  else if specModeDigit w k = 1 then .ImmediateAt (pos + 1 + k)
  else .RelativeBy (pos + 1 + k)

/-- The decoder as the spec describes it. -/
def specDecode (w : Int) (pos : Nat) : Option Instruction :=
  match specKind w with
  | none => none
  | some op =>
    if ∀ k < op.num_params,
        specModeDigit w k = 0 ∨ specModeDigit w k = 1 ∨ specModeDigit w k = 2 then
      some ⟨op, (List.range op.num_params).map (specParameter w pos)⟩
    else none

/-! ### Frame lemmas

The accessors `get`, `get_parameter` and `decode` only read `tape`, `pos` and
`relative_base`, so they are unchanged by updates of the other fields; all of
these are definitional. -/

namespace Intcode

theorem get_with_current (m : Intcode) (c : Option Instruction) :
    Intcode.get { m with current := c } = m.get := rfl

theorem get_with_input (m : Intcode) (xs : List Int) :
    Intcode.get { m with input := xs } = m.get := rfl

theorem get_parameter_with_current (m : Intcode) (c : Option Instruction) :
    Intcode.get_parameter { m with current := c } = m.get_parameter := rfl

theorem get_parameter_with_input (m : Intcode) (xs : List Int) :
    Intcode.get_parameter { m with input := xs } = m.get_parameter := rfl

theorem decode_with_current (m : Intcode) (c : Option Instruction) :
    Intcode.decode { m with current := c } = m.decode := rfl

theorem decode_with_input (m : Intcode) (xs : List Int) :
    Intcode.decode { m with input := xs } = m.decode := rfl

theorem supplyAll_eq (m : Intcode) (xs : List Int) :
    m.supplyAll xs = { m with input := m.input ++ xs } := by
  induction xs generalizing m with
  | nil => simp [supplyAll]
  | cons x rest ih =>
    simp only [supplyAll, List.foldl_cons] at *
    rw [show m.supply_input x = { m with input := m.input ++ [x] } from rfl, ih]
    simp

end Intcode

/-! ### Truncated division facts -/

theorem Int.tdiv_tdiv_nat (a : Int) (b c : Nat) :
    (a.tdiv b).tdiv c = a.tdiv (b * c) := by
  cases a with
  | ofNat m =>
    have h : ((b : Int) * (c : Int)) = ((b * c : Nat) : Int) := by push_cast; ring
    rw [h]
    show Int.ofNat (m / b / c) = Int.ofNat (m / (b * c))
    rw [Nat.div_div_eq_div_mul]
  | negSucc m =>
    have h : ((b : Int) * (c : Int)) = ((b * c : Nat) : Int) := by push_cast; ring
    rw [h]
    show (-Int.ofNat (m.succ / b)).tdiv (Int.ofNat c) = _
    rw [Int.neg_tdiv]
    show -Int.ofNat (m.succ / b / c) = -Int.ofNat (m.succ / (b * c))
    rw [Nat.div_div_eq_div_mul]

theorem Int.tdiv_ten_pow (a : Int) (k : Nat) :
    (a.tdiv 10).tdiv ((10 : Int) ^ k) = a.tdiv ((10 : Int) ^ (k + 1)) := by
  have h : ((10 : Int) ^ k) = ((10 ^ k : Nat) : Int) := by push_cast; ring
  have h2 : ((10 : Int) ^ (k + 1)) = ((10 * 10 ^ k : Nat) : Int) := by push_cast; ring
  rw [h, h2, show (10 : Int) = ((10 : Nat) : Int) from rfl, Int.tdiv_tdiv_nat]
  norm_num

/-! ### Claim C4: the decoder agrees with the spec's digit arithmetic -/

theorem Operation.decodeModes_eq (n : Nat) :
    ∀ (info : Int) (pos i : Nat),
    Operation.decodeModes info pos i n =
      if ∀ k < n, (info.tdiv ((10 : Int) ^ k)).tmod 10 = 0 ∨
          (info.tdiv ((10 : Int) ^ k)).tmod 10 = 1 ∨
          (info.tdiv ((10 : Int) ^ k)).tmod 10 = 2 then
        some ((List.range n).map (fun k =>
          if (info.tdiv ((10 : Int) ^ k)).tmod 10 = 0 then
            Parameter.PositionAt (pos + i + k)
          else if (info.tdiv ((10 : Int) ^ k)).tmod 10 = 1 then
            Parameter.ImmediateAt (pos + i + k)
          else Parameter.RelativeBy (pos + i + k)))
      else none := by
  induction n with
  | zero =>
    intro info pos i
    simp [Operation.decodeModes]
  | succ n ih =>
    intro info pos i
    have hdig : ∀ k : Nat, ((info.tdiv 10).tdiv ((10 : Int) ^ k)).tmod 10 =
        (info.tdiv ((10 : Int) ^ (k + 1))).tmod 10 := by
      intro k
      rw [Int.tdiv_ten_pow]
    have hzero : (info.tdiv ((10 : Int) ^ 0)).tmod 10 = info.tmod 10 := by
      rw [pow_zero, Int.tdiv_one]
    have hCC : (∀ k < n + 1, (info.tdiv ((10 : Int) ^ k)).tmod 10 = 0 ∨
          (info.tdiv ((10 : Int) ^ k)).tmod 10 = 1 ∨
          (info.tdiv ((10 : Int) ^ k)).tmod 10 = 2) ↔
        ((info.tmod 10 = 0 ∨ info.tmod 10 = 1 ∨ info.tmod 10 = 2) ∧
          (∀ k < n, ((info.tdiv 10).tdiv ((10 : Int) ^ k)).tmod 10 = 0 ∨
            ((info.tdiv 10).tdiv ((10 : Int) ^ k)).tmod 10 = 1 ∨
            ((info.tdiv 10).tdiv ((10 : Int) ^ k)).tmod 10 = 2)) := by
      constructor
      · intro hC
        refine ⟨by have := hC 0 (by omega); rwa [hzero] at this, fun k hk => ?_⟩
        rw [hdig k]
        exact hC (k + 1) (by omega)
      · rintro ⟨h0, hrest⟩ k hk
        match k with
        | 0 => rwa [hzero]
        | k + 1 =>
          rw [← hdig k]
          exact hrest k (by omega)
    have hmap : ∀ hd : Parameter,
        (fun k => if ((info.tdiv 10).tdiv ((10 : Int) ^ k)).tmod 10 = 0 then
            Parameter.PositionAt (pos + (i + 1) + k)
          else if ((info.tdiv 10).tdiv ((10 : Int) ^ k)).tmod 10 = 1 then
            Parameter.ImmediateAt (pos + (i + 1) + k)
          else Parameter.RelativeBy (pos + (i + 1) + k)) = (fun k =>
          (fun j => if (info.tdiv ((10 : Int) ^ j)).tmod 10 = 0 then
            Parameter.PositionAt (pos + i + j)
          else if (info.tdiv ((10 : Int) ^ j)).tmod 10 = 1 then
            Parameter.ImmediateAt (pos + i + j)
          else Parameter.RelativeBy (pos + i + j)) (Nat.succ k)) := by
      intro hd
      funext k
      simp only [Nat.succ_eq_add_one]
      rw [hdig k, show pos + (i + 1) + k = pos + i + (k + 1) by omega]
    simp only [Operation.decodeModes]
    rw [ih (info.tdiv 10) pos (i + 1)]
    by_cases c0 : info.tmod 10 = 0
    · rw [if_pos c0]
      by_cases hC : ∀ k < n, ((info.tdiv 10).tdiv ((10 : Int) ^ k)).tmod 10 = 0 ∨
          ((info.tdiv 10).tdiv ((10 : Int) ^ k)).tmod 10 = 1 ∨
          ((info.tdiv 10).tdiv ((10 : Int) ^ k)).tmod 10 = 2
      · rw [if_pos hC, if_pos (hCC.mpr ⟨Or.inl c0, hC⟩), Option.map_some']
        congr 1
        rw [List.range_succ_eq_map, List.map_cons, List.map_map]
        congr 1
        · rw [show pos + i + 0 = pos + i by omega] at *
          simp [hzero, c0]
        · rw [Function.comp_def, ← hmap (Parameter.PositionAt 0)]
      · rw [if_neg hC, if_neg (fun h => hC (hCC.mp h).2), Option.map_none']
    · rw [if_neg c0]
      by_cases c1 : info.tmod 10 = 1
      · rw [if_pos c1]
        by_cases hC : ∀ k < n, ((info.tdiv 10).tdiv ((10 : Int) ^ k)).tmod 10 = 0 ∨
            ((info.tdiv 10).tdiv ((10 : Int) ^ k)).tmod 10 = 1 ∨
            ((info.tdiv 10).tdiv ((10 : Int) ^ k)).tmod 10 = 2
        · rw [if_pos hC, if_pos (hCC.mpr ⟨Or.inr (Or.inl c1), hC⟩), Option.map_some']
          congr 1
          rw [List.range_succ_eq_map, List.map_cons, List.map_map]
          congr 1
          · rw [show pos + i + 0 = pos + i by omega] at *
            simp [hzero, c0, c1]
          · rw [Function.comp_def, ← hmap (Parameter.PositionAt 0)]
        · rw [if_neg hC, if_neg (fun h => hC (hCC.mp h).2), Option.map_none']
      · rw [if_neg c1]
        by_cases c2 : info.tmod 10 = 2
        · rw [if_pos c2]
          by_cases hC : ∀ k < n, ((info.tdiv 10).tdiv ((10 : Int) ^ k)).tmod 10 = 0 ∨
              ((info.tdiv 10).tdiv ((10 : Int) ^ k)).tmod 10 = 1 ∨
              ((info.tdiv 10).tdiv ((10 : Int) ^ k)).tmod 10 = 2
          · rw [if_pos hC, if_pos (hCC.mpr ⟨Or.inr (Or.inr c2), hC⟩), Option.map_some']
            congr 1
            rw [List.range_succ_eq_map, List.map_cons, List.map_map]
            congr 1
            · rw [show pos + i + 0 = pos + i by omega] at *
              simp [hzero, c0, c1, c2]
            · rw [Function.comp_def, ← hmap (Parameter.PositionAt 0)]
          · rw [if_neg hC, if_neg (fun h => hC (hCC.mp h).2), Option.map_none']
        · rw [if_neg c2]
          rw [if_neg (fun h => by
            rcases (hCC.mp h).1 with h' | h' | h' <;> simp_all)]

/-- Claim C4 (confirmed): the decoder computes the operation kind as
`w mod 100` through the dispatch table, extracts one addressing-mode digit per
operand from `w / 100`, least-significant digit first in left-to-right operand
order (`(w / 100 / 10^k) mod 10` for the `k`-th operand), maps digit 0 to
Position, 1 to Immediate and 2 to Relative, and fails — fatally, the `none`
of the model — for any operation kind outside the table or any mode digit
outside `{0,1,2}`.  (`mod` and `/` are `i64` truncated division, as in the
source language.) -/
theorem decode_matches_spec (m : Intcode) (pos : Nat) :
    m.decode pos = specDecode (m.get pos) pos := by
  simp only [Intcode.decode, specDecode, specKind, Operation.decode]
  split
  · rfl
  · rename_i op heq
    rw [Operation.decodeModes_eq op.num_params ((m.get pos).tdiv 100) pos 1]
    simp only [specParameter, specModeDigit]
    by_cases hC : ∀ k < op.num_params,
        (((m.get pos).tdiv 100).tdiv ((10 : Int) ^ k)).tmod 10 = 0 ∨
        (((m.get pos).tdiv 100).tdiv ((10 : Int) ^ k)).tmod 10 = 1 ∨
        (((m.get pos).tdiv 100).tdiv ((10 : Int) ^ k)).tmod 10 = 2
    · rw [if_pos hC, if_pos hC]
      have hfun : (fun k =>
          if (((m.get pos).tdiv 100).tdiv ((10 : Int) ^ k)).tmod 10 = 0 then
            Parameter.PositionAt (pos + 1 + k)
          else if (((m.get pos).tdiv 100).tdiv ((10 : Int) ^ k)).tmod 10 = 1 then
            Parameter.ImmediateAt (pos + 1 + k)
          else Parameter.RelativeBy (pos + 1 + k)) = specParameter (m.get pos) pos := by
        funext k
        simp [specParameter, specModeDigit]
      rw [hfun]
    · rw [if_neg hC, if_neg hC]

/-! ### The store path: growth, zero-fill, frame -/

theorem usizeOf_eq_toNat (x : Int) (h0 : 0 ≤ x) (hlt : x < 2 ^ 64) :
    usizeOf x = x.toNat := by
  unfold usizeOf
  rw [Int.emod_eq_of_lt h0 hlt]

theorem Intcode.get_eq_getElem? (m : Intcode) (idx : Nat) :
    m.get idx = m.tape[idx]?.getD 0 := by
  unfold Intcode.get
  split
  · rw [List.getElem?_eq_none (by omega)]
    rfl
  · rw [List.getD_eq_getElem?_getD]

theorem Intcode.get_beyond (m : Intcode) (idx : Nat) (h : idx ≥ m.tape.length) :
    m.get idx = 0 := by
  simp [Intcode.get, h]

/-- Zero-pad a tape to `t + 1` cells if shorter, then overwrite cell `t`. -/
def paddedSet (tape : List Int) (t : Nat) (v : Int) : List Int :=
  (tape ++ List.replicate (t + 1 - tape.length) 0).set t v

/-- `ensure_len` with a request not exceeding the current length is a no-op. -/
theorem Intcode.ensure_len_le (m : Intcode) (len : Nat) (h : len ≤ m.tape.length) :
    m.ensure_len len = some m := by
  unfold Intcode.ensure_len Intcode.resizeTape
  by_cases h2 : len ≥ m.tape.length
  · have h3 : len = m.tape.length := by omega
    subst h3
    simp
  · simp [h2]

/-- `ensure_len` with a growth request inside the allocation guard zero-extends. -/
theorem Intcode.ensure_len_grow (m : Intcode) (len : Nat) (h : m.tape.length < len)
    (hcap : len < 2 ^ 60) :
    m.ensure_len len =
      some { m with tape := m.tape ++ List.replicate (len - m.tape.length) 0 } := by
  unfold Intcode.ensure_len Intcode.resizeTape
  have h1 : len ≥ m.tape.length := by omega
  have h2 : ¬(len ≤ m.tape.length) := by omega
  simp only [h1, if_true, h2, if_false, ge_iff_le]
  rw [if_pos hcap]

/-- `ensure_len` with a growth request beyond the allocation guard dies. -/
theorem Intcode.ensure_len_overflow (m : Intcode) (len : Nat) (h : m.tape.length < len)
    (hcap : 2 ^ 60 ≤ len) :
    m.ensure_len len = none := by
  unfold Intcode.ensure_len Intcode.resizeTape
  have h1 : len ≥ m.tape.length := by omega
  have h2 : ¬(len ≤ m.tape.length) := by omega
  have h3 : ¬(len < 2 ^ 60) := by omega
  rw [if_pos h1, if_neg h2, if_neg h3]

/-- On a non-negative in-guard resolved target `t`, `store` is the uniform
"zero-pad to `t+1` cells if shorter, then overwrite cell `t`" operation. -/
theorem Intcode.store_eq (m : Intcode) (r : ResultAt) (t : Nat)
    (ht : (t : Int) = m.get r.pos + (if r.relative then m.relative_base else 0))
    (hcap : t + 1 < 2 ^ 60) :
    m.store r = some { m with tape := paddedSet m.tape t r.value } := by
  have h1 : usizeOf ((t : Int) + 1) = t + 1 := by
    rw [show ((t : Int) + 1) = ((t + 1 : Nat) : Int) by push_cast; ring]
    rw [usizeOf_eq_toNat _ (by omega) (by omega)]
    omega
  have h2 : usizeOf (t : Int) = t := by
    rw [usizeOf_eq_toNat _ (by omega) (by omega)]
    omega
  simp only [Intcode.store, ← ht, h1, h2]
  by_cases hle : t + 1 ≤ m.tape.length
  · simp only [Intcode.ensure_len_le m (t + 1) hle]
    have hc : t < m.tape.length := by omega
    have hpad : t + 1 - m.tape.length = 0 := by omega
    simp [hc, paddedSet, hpad]
  · have hg : m.tape.length < t + 1 := by omega
    simp only [Intcode.ensure_len_grow m (t + 1) hg (by omega)]
    have hc : t < (m.tape ++ List.replicate (t + 1 - m.tape.length) 0).length := by
      simp
      omega
    simp [hc, paddedSet]
    omega

/-- What the cells read after a successful `store`: the target holds the new
value, every other index is unchanged (cells created by zero-fill read 0 both
before and after), and the length becomes `max (old length) (t+1)`. -/
theorem Intcode.store_spec (m : Intcode) (r : ResultAt) (t : Nat)
    (ht : (t : Int) = m.get r.pos + (if r.relative then m.relative_base else 0))
    (hcap : t + 1 < 2 ^ 60) :
    ∃ m', m.store r = some m' ∧
      m'.tape.length = max m.tape.length (t + 1) ∧
      m'.get t = r.value ∧
      (∀ j : Nat, j ≠ t → m'.get j = m.get j) ∧
      m'.pos = m.pos ∧ m'.current = m.current ∧ m'.input = m.input ∧
      m'.output = m.output ∧ m'.finished = m.finished ∧
      m'.relative_base = m.relative_base ∧ m'.tape_init = m.tape_init := by
  rw [Intcode.store_eq m r t ht hcap]
  refine ⟨_, rfl, ?_, ?_, ?_, rfl, rfl, rfl, rfl, rfl, rfl, rfl⟩
  · simp only [paddedSet, List.length_set, List.length_append, List.length_replicate]
    omega
  · rw [Intcode.get_eq_getElem?]
    simp only [paddedSet]
    rw [List.getElem?_set_eq_of_lt]
    · rfl
    · simp only [List.length_append, List.length_replicate]
      omega
  · intro j hj
    rw [Intcode.get_eq_getElem?, Intcode.get_eq_getElem?]
    simp only [paddedSet]
    rw [List.getElem?_set_ne (Ne.symm hj)]
    by_cases hjl : j < m.tape.length
    · rw [List.getElem?_append]
      simp [hjl]
    · rw [@List.getElem?_append_right _ m.tape
          (List.replicate (t + 1 - m.tape.length) 0) j (by omega),
        @List.getElem?_eq_none _ m.tape j (by omega), List.getElem?_replicate]
      split <;> rfl

/-! ### Claim C3: zero-on-read beyond the extent, zero-fill growth on store -/

/-- Claim C3 (counterexample): the growth path is not available for *every*
non-negative target address.  For the machine `[2^60]`, a store resolving to
the non-negative address `2^60` (which is at or beyond the current length 1)
does not grow-and-write: the `Vec::resize` request of `2^60 + 1` eight-byte
cells exceeds `isize::MAX` bytes, a guaranteed capacity-overflow death. -/
theorem store_capacity_overflow_cex :
    (Intcode.new [1152921504606846976]).store (ResultAt.mk 0 5 false) = none ∧
    (0 : Int) ≤ (Intcode.new [1152921504606846976]).get 0 ∧
    (Intcode.new [1152921504606846976]).tape.length ≤ 1152921504606846976 := by
  refine ⟨?_, by decide, by decide⟩
  have h := Intcode.ensure_len_overflow (Intcode.new [1152921504606846976])
    (1152921504606846977) (by decide) (by norm_num)
  simp only [Intcode.store]
  have hu : usizeOf ((Intcode.new [1152921504606846976]).get 0 +
      (if (ResultAt.mk 0 5 false).relative
        then (Intcode.new [1152921504606846976]).relative_base else 0) + 1) =
      1152921504606846977 := by
    rw [usizeOf_eq_toNat _ (by decide) (by decide)]
    decide
  rw [hu, h]

/-- Claim C3 (corrected): reading any address at or beyond the current length
yields 0 (and `get` takes the machine by shared reference, so nothing grows);
a store whose resolved target `t` is non-negative, at or beyond the current
length, and within the allocation guard (`t + 1 < 2^60` cells) first grows the
tape to exactly `t + 1` cells, zero-filling every intervening cell, then
writes the value at `t`; afterwards every extended address other than `t`
reads 0 and every pre-existing address keeps its old value. -/
theorem memory_growth_amended (m : Intcode) (idx : Nat) (r : ResultAt) (t : Nat)
    (ht : (t : Int) = m.get r.pos + (if r.relative then m.relative_base else 0))
    (hlen : m.tape.length ≤ t) (hcap : t + 1 < 2 ^ 60) :
    (idx ≥ m.tape.length → m.get idx = 0) ∧
    ∃ m', m.store r = some m' ∧ m'.tape.length = t + 1 ∧
      m'.get t = r.value ∧
      (∀ j : Nat, m.tape.length ≤ j → j ≠ t → m'.get j = 0) ∧
      (∀ j : Nat, j < m.tape.length → m'.get j = m.get j) := by
  refine ⟨fun h => Intcode.get_beyond m idx h, ?_⟩
  obtain ⟨m', hst, hlen', hget, hframe, -⟩ := Intcode.store_spec m r t ht hcap
  refine ⟨m', hst, by omega, hget, ?_, ?_⟩
  · intro j hj hjt
    rw [hframe j hjt]
    exact Intcode.get_beyond m j hj
  · intro j hjl
    exact hframe j (by omega)

/-- Witness for C3 (amended) at a concrete machine: `[10, 20]` with a store
resolving to address 10 (via position parameter 0). -/
theorem memory_growth_amended_witness :
    (2 ≥ (Intcode.new [10, 20]).tape.length → (Intcode.new [10, 20]).get 2 = 0) ∧
    ∃ m', (Intcode.new [10, 20]).store (ResultAt.mk 0 5 false) = some m' ∧
      m'.tape.length = 11 ∧ m'.get 10 = 5 ∧
      (∀ j : Nat, (Intcode.new [10, 20]).tape.length ≤ j → j ≠ 10 → m'.get j = 0) ∧
      (∀ j : Nat, j < (Intcode.new [10, 20]).tape.length →
        m'.get j = (Intcode.new [10, 20]).get j) :=
  memory_growth_amended (Intcode.new [10, 20]) 2 (ResultAt.mk 0 5 false) 10
    (by decide) (by decide) (by norm_num)

/-! ### Claim C5: parameter resolution -/

/-- Claim C5 (confirmed): read-resolution returns
`read(read(addr))` for Position, `read(addr)` for Immediate and
`read(read(addr) + base)` for Relative, and the address a store actually
writes is `read(addr)` for Position and `read(addr) + base` for Relative.
The hypotheses confine the resolved addresses to the non-negative range
(where the spec's `Memory.read` is defined at all; negative resolutions are
claim C8's subject) and, for the store clause, to the allocation guard. -/
theorem parameter_resolution (m : Intcode) (a : Nat) (v : Int) (rel : Bool)
    (t : Nat) :
    (m.get_parameter (.ImmediateAt a) = m.get a) ∧
    (0 ≤ m.get a → m.get a < 2 ^ 64 →
      m.get_parameter (.PositionAt a) = m.get (m.get a).toNat) ∧
    (0 ≤ m.get a + m.relative_base → m.get a + m.relative_base < 2 ^ 64 →
      m.get_parameter (.RelativeBy a) = m.get (m.get a + m.relative_base).toNat) ∧
    ((t : Int) = m.get a + (if rel then m.relative_base else 0) → t + 1 < 2 ^ 60 →
      ∃ m', m.store (ResultAt.mk a v rel) = some m' ∧ m'.get t = v ∧
        ∀ j : Nat, j ≠ t → m'.get j = m.get j) := by
  refine ⟨rfl, ?_, ?_, ?_⟩
  · intro h0 hlt
    simp only [Intcode.get_parameter]
    rw [usizeOf_eq_toNat _ h0 hlt]
  · intro h0 hlt
    simp only [Intcode.get_parameter]
    rw [usizeOf_eq_toNat _ h0 hlt]
  · intro ht hcap
    obtain ⟨m', hst, -, hget, hframe, -⟩ := Intcode.store_spec m (ResultAt.mk a v rel) t ht hcap
    exact ⟨m', hst, hget, hframe⟩

/-- Witness for C5 at the concrete machine `[2, 7, 5]`: position parameter 0
resolves through address 2, immediate parameter 1 reads the cell itself,
relative parameter 1 resolves through address 7 (base 0), and a position-mode
store through cell 1 writes address 7. -/
theorem parameter_resolution_witness :
    ((Intcode.new [2, 7, 5]).get_parameter (.ImmediateAt 1) =
      (Intcode.new [2, 7, 5]).get 1) ∧
    ((Intcode.new [2, 7, 5]).get_parameter (.PositionAt 0) =
      (Intcode.new [2, 7, 5]).get ((Intcode.new [2, 7, 5]).get 0).toNat) ∧
    ((Intcode.new [2, 7, 5]).get_parameter (.RelativeBy 1) =
      (Intcode.new [2, 7, 5]).get
        ((Intcode.new [2, 7, 5]).get 1 + (Intcode.new [2, 7, 5]).relative_base).toNat) ∧
    (∃ m', (Intcode.new [2, 7, 5]).store (ResultAt.mk 1 9 false) = some m' ∧
      m'.get 7 = 9 ∧ ∀ j : Nat, j ≠ 7 → m'.get j = (Intcode.new [2, 7, 5]).get j) := by
  obtain ⟨h1, h2, h3, h4⟩ := parameter_resolution (Intcode.new [2, 7, 5]) 1 9 false 7
  obtain ⟨-, h2', -, -⟩ := parameter_resolution (Intcode.new [2, 7, 5]) 0 9 false 7
  exact ⟨h1, h2' (by decide) (by decide), h3 (by decide) (by decide),
    h4 (by decide) (by norm_num)⟩

/-! ### Frame lemmas for the execution pipeline

`computeRaw`, `store` and `step` commute with updating the fields they never
read: the pending-instruction slot, and (when no pause is involved) the tail
of the input queue. -/

theorem Instruction.finish_map (i : Instruction) (t t' : Intcode)
    (raw : RawComputeResult) :
    i.finish t raw = (i.finish t' raw).map (fun p => (t, p.2)) := by
  cases raw with
  | Store v =>
    simp only [Instruction.finish]
    cases hl : i.params.getLast? with
    | none => simp
    | some param => cases param <;> simp
  | JumpTo a => simp [Instruction.finish]
  | Nothing => simp [Instruction.finish]
  | Pause => simp [Instruction.finish]

theorem Instruction.finish_fst (i : Instruction) (t : Intcode)
    (raw : RawComputeResult) (q : Intcode × ComputeResult)
    (h : i.finish t raw = some q) : q.1 = t := by
  rw [Instruction.finish_map i t t raw] at h
  cases hf : i.finish t raw with
  | none => rw [hf] at h; simp at h
  | some q' =>
    rw [hf] at h
    simp at h
    rw [← h]

theorem Instruction.computeRaw_with_current (i : Instruction) (m : Intcode)
    (c : Option Instruction) :
    i.computeRaw { m with current := c } =
      (i.computeRaw m).map (fun p => ({ p.1 with current := c }, p.2)) := by
  rcases i with ⟨op, ps⟩
  simp only [Instruction.computeRaw]
  rw [show Intcode.get_parameter { m with current := c } = m.get_parameter from rfl]
  cases op <;> rcases hps : ps.map m.get_parameter with _ | ⟨p0, _ | ⟨p1, tl⟩⟩ <;>
    cases hin : m.input <;> simp [hin]

theorem Instruction.compute_with_current (i : Instruction) (m : Intcode)
    (c : Option Instruction) :
    i.compute { m with current := c } =
      (i.compute m).map (fun p => ({ p.1 with current := c }, p.2)) := by
  simp only [Instruction.compute]
  rw [Instruction.computeRaw_with_current]
  cases hr : i.computeRaw m with
  | none => simp
  | some p =>
    obtain ⟨t, raw⟩ := p
    simp only [Option.map_some']
    rw [Instruction.finish_map i { t with current := c } t raw]
    cases hf : i.finish t raw with
    | none => simp
    | some q =>
      simp [Instruction.finish_fst i t raw q hf]

theorem Intcode.ensure_len_with_current (m : Intcode) (c : Option Instruction)
    (len : Nat) :
    Intcode.ensure_len { m with current := c } len =
      (m.ensure_len len).map (fun x => { x with current := c }) := by
  unfold Intcode.ensure_len
  by_cases h : len ≥ m.tape.length
  · simp only [show ({ m with current := c } : Intcode).tape = m.tape from rfl, h,
      if_true]
    cases hr : Intcode.resizeTape m.tape len <;> simp
  · simp only [show ({ m with current := c } : Intcode).tape = m.tape from rfl, h,
      if_false]
    simp

theorem Intcode.store_with_current (m : Intcode) (c : Option Instruction)
    (r : ResultAt) :
    Intcode.store { m with current := c } r =
      (m.store r).map (fun x => { x with current := c }) := by
  simp only [Intcode.store]
  rw [show Intcode.get { m with current := c } = m.get from rfl,
    show ({ m with current := c } : Intcode).relative_base = m.relative_base from rfl,
    Intcode.ensure_len_with_current]
  cases he : m.ensure_len (usizeOf
      (m.get r.pos + (if r.relative then m.relative_base else 0) + 1)) with
  | none => simp
  | some m' =>
    simp only [Option.map_some']
    by_cases hlt : usizeOf (m.get r.pos +
        (if r.relative then m.relative_base else 0)) < m'.tape.length
    · simp [hlt]
    · simp [hlt]

/-- The cached-instruction path: when the pending slot holds exactly the
instruction the decoder would produce at `pc`, `step` behaves identically to a
fresh decode (the non-`Break` outcomes all overwrite the slot anyway). -/
theorem Intcode.step_cached (m : Intcode) (i : Instruction)
    (hcur : m.current = none) (hdec : m.decode m.pos = some i)
    (hbr : ¬(i.op = Operation.Break)) :
    Intcode.step { m with current := some i } = m.step := by
  simp only [Intcode.step, Intcode.stepGo, hcur, hdec]
  rw [if_neg hbr, if_neg hbr]
  rw [Instruction.compute_with_current]
  cases hc : i.compute m with
  | none => simp
  | some p =>
    obtain ⟨m', res⟩ := p
    cases res with
    | Pause => simp
    | JumpTo a => simp
    | Nothing => simp
    | StoreAt r =>
      simp only [Option.map_some']
      rw [Intcode.store_with_current]
      cases hs : m'.store r with
      | none => simp
      | some m'' => simp

/-! ### Claim C1: the empty-queue Input pause -/

/-- Claim C1 (confirmed): when the next instruction decodes to `Input` and the
input queue is empty, `step` returns the pause signal (`false` without
finishing) and the post-state is exactly the pre-state with the just-decoded
instruction parked in the pending slot — same memory, same `pc`, same queues,
so no input was consumed and nothing was written.  Moreover, once any
non-empty input is present, stepping the paused machine (which reuses the
cached instruction without re-decoding) behaves exactly as a fresh step at the
same `pc` would: the retained instruction completes verbatim. -/
theorem input_pause_retains_instruction (m : Intcode) (i : Instruction)
    (hcur : m.current = none) (hdec : m.decode m.pos = some i)
    (hop : i.op = Operation.Input) (hin : m.input = []) :
    m.step = some ({ m with current := some i }, false) ∧
    ∀ zs : List Int, zs ≠ [] →
      Intcode.step { m with current := some i, input := zs } =
      Intcode.step { m with input := zs } := by
  have hbr : ¬(i.op = Operation.Break) := by rw [hop]; simp
  have hcomp : i.compute m = some (m, ComputeResult.Pause) := by
    rcases i with ⟨op, ps⟩
    simp only at hop
    subst hop
    simp [Instruction.compute, Instruction.computeRaw, Instruction.finish, hin]
  constructor
  · simp only [Intcode.step, Intcode.stepGo, hcur, hdec]
    rw [if_neg hbr, hcomp]
  · intro zs hzs
    exact Intcode.step_cached { m with input := zs } i hcur hdec hbr

/-- Witness for C1: `[3,0,99]` with no input pauses holding its decoded
`Input` instruction; resumed with input `[7]`, the cached instruction behaves
as a fresh decode would. -/
theorem input_pause_retains_instruction_witness :
    (Intcode.new [3, 0, 99]).step =
      some ({ Intcode.new [3, 0, 99] with
        current := some (Instruction.mk Operation.Input [Parameter.PositionAt 1]) },
        false) ∧
    Intcode.step { Intcode.new [3, 0, 99] with
        current := some (Instruction.mk Operation.Input [Parameter.PositionAt 1]),
        input := [7] } =
      Intcode.step { Intcode.new [3, 0, 99] with input := [7] } :=
  ⟨(input_pause_retains_instruction (Intcode.new [3, 0, 99])
      (Instruction.mk Operation.Input [Parameter.PositionAt 1]) rfl (by decide)
      rfl rfl).1,
   (input_pause_retains_instruction (Intcode.new [3, 0, 99])
      (Instruction.mk Operation.Input [Parameter.PositionAt 1]) rfl (by decide)
      rfl rfl).2 [7] (by decide)⟩

/-! ### Claim C7: Immediate write targets -/

/-- Claim C7 (counterexample): the decoder happily decodes `[11101,1,1,0,99]`
— an `Add` whose final (write-target) operand has mode digit 1 (Immediate) —
so the fatal error is *not* raised at decode time; the machine only dies when
the instruction executes. -/
theorem immediate_write_decode_cex :
    (Intcode.new [11101, 1, 1, 0, 99]).decode 0 =
      some (Instruction.mk Operation.Add
        [Parameter.ImmediateAt 1, Parameter.ImmediateAt 2, Parameter.ImmediateAt 3]) ∧
    (Intcode.new [11101, 1, 1, 0, 99]).step = none := by
  decide

/-- Claim C7 (corrected): for a store-producing operation (Add, Multiply,
Input, LessThan, Equals) whose final operand decoded as Immediate, the fatal
error is raised when the instruction *executes* — at the moment its Store
result looks up the write target (for Input, only once an input is available
to pop; with an empty queue the instruction pauses first) — and before any
memory write or output: `compute` dies, and so does the `step` that runs the
instruction. -/
theorem immediate_write_execute_fatal (m : Intcode) (i : Instruction) (a : Nat)
    (hcur : m.current = some i ∨ (m.current = none ∧ m.decode m.pos = some i))
    (hop : i.op = .Add ∨ i.op = .Multiply ∨ i.op = .Input ∨ i.op = .LessThan ∨
      i.op = .Equals)
    (hlast : i.params.getLast? = some (.ImmediateAt a))
    (hinp : i.op = .Input → m.input ≠ []) :
    i.compute m = none ∧ m.step = none := by
  have hfin : ∀ (t : Intcode) (v : Int), i.finish t (.Store v) = none := by
    intro t v
    simp [Instruction.finish, hlast]
  have hraw : i.computeRaw m = none ∨
      ∃ t v, i.computeRaw m = some (t, .Store v) := by
    rcases i with ⟨op, ps⟩
    simp only [Instruction.computeRaw]
    rcases hop with h | h | h | h | h <;> subst h
    · rcases hps : ps.map m.get_parameter with _ | ⟨p0, _ | ⟨p1, tl⟩⟩ <;> simp
    · rcases hps : ps.map m.get_parameter with _ | ⟨p0, _ | ⟨p1, tl⟩⟩ <;> simp
    · cases hin : m.input with
      | nil => exact absurd hin (hinp rfl)
      | cons v tl => simp
    · rcases hps : ps.map m.get_parameter with _ | ⟨p0, _ | ⟨p1, tl⟩⟩ <;> simp
      by_cases hcmp : p0 < p1 <;> simp [hcmp]
    · rcases hps : ps.map m.get_parameter with _ | ⟨p0, _ | ⟨p1, tl⟩⟩ <;> simp
      by_cases hcmp : p0 = p1 <;> simp [hcmp]
  have hcompute : i.compute m = none := by
    rcases hraw with h | ⟨t, v, h⟩
    · simp [Instruction.compute, h]
    · simp [Instruction.compute, h, hfin]
  refine ⟨hcompute, ?_⟩
  have hbreak : ¬(i.op = Operation.Break) := by
    rcases hop with h | h | h | h | h <;> simp [h]
  simp only [Intcode.step, Intcode.stepGo]
  rcases hcur with h | ⟨h1, h2⟩
  · rw [h]
    simp [hbreak, hcompute]
  · rw [h1, h2]
    simp [hbreak, hcompute]

/-- Witness for C7 at the machine `[11101,1,1,0,99]` about to execute its
all-Immediate `Add`. -/
theorem immediate_write_execute_fatal_witness :
    (Instruction.mk Operation.Add
      [Parameter.ImmediateAt 1, Parameter.ImmediateAt 2,
        Parameter.ImmediateAt 3]).compute (Intcode.new [11101, 1, 1, 0, 99]) = none ∧
    (Intcode.new [11101, 1, 1, 0, 99]).step = none :=
  immediate_write_execute_fatal (Intcode.new [11101, 1, 1, 0, 99])
    (Instruction.mk Operation.Add
      [Parameter.ImmediateAt 1, Parameter.ImmediateAt 2, Parameter.ImmediateAt 3]) 3
    (Or.inr ⟨rfl, by decide⟩) (Or.inl rfl) (by decide) (by decide)

/-! ### Claim C8: negative resolved addresses -/

theorem usizeOf_neg (x : Int) (h1 : -(2 : Int) ^ 63 ≤ x) (h2 : x < 0) :
    usizeOf x = (x + 2 ^ 64).toNat ∧ 2 ^ 63 ≤ usizeOf x := by
  unfold usizeOf
  omega

/-- Claim C8 (counterexample): a *read* operand resolving to the negative
address −1 is not fatal: the `i64 → usize` cast wraps it to `2^64 − 1`, which
is beyond the memory extent, so the read returns 0 — and the program
`[1,-1,0,0,99]`, whose first Add reads through the negative pointer at cell 1,
runs to a perfectly normal halt. -/
theorem negative_read_not_fatal_cex :
    (Intcode.new [1, -1, 0, 0, 99]).get 1 < 0 ∧
    (Intcode.new [1, -1, 0, 0, 99]).get_parameter (.PositionAt 1) = 0 ∧
    Option.map Intcode.is_finished
      (Intcode.executeFuel 2 (Intcode.new [1, -1, 0, 0, 99])) = some true := by
  decide

/-- Claim C8 (corrected): a negative resolved *write* target is fatal — the
store dies (out-of-bounds index for −1, guaranteed capacity overflow below
that) without writing anything.  A negative resolved *read* address is not
detected at all: the cast wraps it to an index at or above `2^63`, which (for
any machine whose memory fits the allocation guard) is beyond the extent, so
the read silently returns 0.  Bounds confine values to the `i64` range, as in
the source. -/
theorem negative_address_amended (m : Intcode) (p a : Nat) (v : Int)
    (rel : Bool) (hlen : m.tape.length < 2 ^ 63) :
    (-(2 : Int) ^ 63 ≤ m.get p + (if rel then m.relative_base else 0) →
      m.get p + (if rel then m.relative_base else 0) < 0 →
      m.store (ResultAt.mk p v rel) = none) ∧
    (-(2 : Int) ^ 63 ≤ m.get a → m.get a < 0 → m.get_parameter (.PositionAt a) = 0) ∧
    (-(2 : Int) ^ 63 ≤ m.get a + m.relative_base → m.get a + m.relative_base < 0 →
      m.get_parameter (.RelativeBy a) = 0) := by
  refine ⟨?_, ?_, ?_⟩
  · intro hge hlt
    simp only [Intcode.store]
    by_cases hm1 : m.get p + (if rel then m.relative_base else 0) = -1
    · rw [hm1]
      rw [show (-1 : Int) + 1 = 0 by ring, show usizeOf 0 = 0 from rfl]
      rw [Intcode.ensure_len_le m 0 (by omega)]
      obtain ⟨-, hbig⟩ := usizeOf_neg (-1) (by norm_num) (by norm_num)
      have : ¬(usizeOf (-1) < m.tape.length) := by omega
      simp [this]
    · have hA : -(2 : Int) ^ 63 ≤ m.get p + (if rel then m.relative_base else 0) + 1 := by
        omega
      have hB : m.get p + (if rel then m.relative_base else 0) + 1 < 0 := by
        omega
      obtain ⟨-, hbig⟩ := usizeOf_neg
        (m.get p + (if rel then m.relative_base else 0) + 1) hA hB
      rw [Intcode.ensure_len_overflow m _ (by omega) (by omega)]
  · intro hge hlt
    obtain ⟨-, hbig⟩ := usizeOf_neg (m.get a) hge hlt
    simp only [Intcode.get_parameter]
    exact Intcode.get_beyond m _ (by omega)
  · intro hge hlt
    obtain ⟨-, hbig⟩ := usizeOf_neg (m.get a + m.relative_base) hge hlt
    simp only [Intcode.get_parameter]
    exact Intcode.get_beyond m _ (by omega)

/-- Witness for C8 (amended): a store resolving to −1 on `[-1]` dies; reads
resolving to −1 on `[1,-1,0,0,99]` return 0 in both Position and Relative
modes. -/
theorem negative_address_amended_witness :
    (Intcode.new [-1]).store (ResultAt.mk 0 5 false) = none ∧
    (Intcode.new [1, -1, 0, 0, 99]).get_parameter (.PositionAt 1) = 0 ∧
    (Intcode.new [1, -1, 0, 0, 99]).get_parameter (.RelativeBy 1) = 0 :=
  ⟨(negative_address_amended (Intcode.new [-1]) 0 0 5 false (by decide)).1
      (by decide) (by decide),
   (negative_address_amended (Intcode.new [1, -1, 0, 0, 99]) 0 1 0 false
      (by decide)).2.1 (by decide) (by decide),
   (negative_address_amended (Intcode.new [1, -1, 0, 0, 99]) 0 1 0 false
      (by decide)).2.2 (by decide) (by decide)⟩

/-! ### Claim C2: appending future inputs commutes with execution

The only reader of the input queue is the `Input` operation's `pop_front`, so
appending extra inputs at the back never changes a step that does not pause;
a step that would pause instead consumes the first appended input. -/

theorem Intcode.current_append (m : Intcode) (xs : List Int) :
    ({ m with input := m.input ++ xs } : Intcode).current = m.current := rfl

theorem Intcode.pos_append (m : Intcode) (xs : List Int) :
    ({ m with input := m.input ++ xs } : Intcode).pos = m.pos := rfl

theorem Intcode.decode_append (m : Intcode) (xs : List Int) :
    Intcode.decode { m with input := m.input ++ xs } = m.decode := rfl

theorem Intcode.with_input_self (m : Intcode) (v : List Int) (h : m.input = v) :
    ({ m with input := v } : Intcode) = m := by
  cases m
  simp_all

theorem Intcode.with_current_self (m : Intcode) (c : Option Instruction)
    (h : m.current = c) :
    ({ m with current := c } : Intcode) = m := by
  cases m
  simp_all

theorem Intcode.ensure_len_frame (m : Intcode) (len : Nat) (m₂ : Intcode)
    (h : m.ensure_len len = some m₂) :
    m₂.pos = m.pos ∧ m₂.current = m.current ∧ m₂.input = m.input ∧
    m₂.output = m.output ∧ m₂.finished = m.finished ∧
    m₂.relative_base = m.relative_base ∧ m₂.tape_init = m.tape_init := by
  unfold Intcode.ensure_len at h
  by_cases hge : len ≥ m.tape.length
  · rw [if_pos hge] at h
    cases hr : Intcode.resizeTape m.tape len with
    | none => rw [hr] at h; simp at h
    | some tape' =>
      rw [hr] at h
      simp at h
      rw [← h]
      simp
  · rw [if_neg hge] at h
    simp at h
    rw [← h]
    simp

theorem Intcode.store_frame (m : Intcode) (r : ResultAt) (m' : Intcode)
    (h : m.store r = some m') :
    m'.pos = m.pos ∧ m'.current = m.current ∧ m'.input = m.input ∧
    m'.output = m.output ∧ m'.finished = m.finished ∧
    m'.relative_base = m.relative_base ∧ m'.tape_init = m.tape_init := by
  simp only [Intcode.store] at h
  cases he : m.ensure_len (usizeOf
      (m.get r.pos + (if r.relative then m.relative_base else 0) + 1)) with
  | none => rw [he] at h; simp at h
  | some m₂ =>
    rw [he] at h
    obtain ⟨h1, h2, h3, h4, h5, h6, h7⟩ := Intcode.ensure_len_frame m _ m₂ he
    simp at h
    obtain ⟨hlt, hm'⟩ := h
    rw [← hm']
    simp_all

theorem Intcode.ensure_len_append (m : Intcode) (xs : List Int) (len : Nat) :
    Intcode.ensure_len { m with input := m.input ++ xs } len =
      (m.ensure_len len).map (fun x => { x with input := x.input ++ xs }) := by
  unfold Intcode.ensure_len
  by_cases h : len ≥ m.tape.length
  · simp only [show ({ m with input := m.input ++ xs } : Intcode).tape = m.tape from rfl,
      h, if_true]
    cases hr : Intcode.resizeTape m.tape len <;> simp
  · simp only [show ({ m with input := m.input ++ xs } : Intcode).tape = m.tape from rfl,
      h, if_false]
    simp

theorem Intcode.store_append (m : Intcode) (xs : List Int) (r : ResultAt) :
    Intcode.store { m with input := m.input ++ xs } r =
      (m.store r).map (fun x => { x with input := x.input ++ xs }) := by
  simp only [Intcode.store]
  rw [show Intcode.get { m with input := m.input ++ xs } = m.get from rfl,
    show ({ m with input := m.input ++ xs } : Intcode).relative_base = m.relative_base
      from rfl,
    Intcode.ensure_len_append]
  cases he : m.ensure_len (usizeOf
      (m.get r.pos + (if r.relative then m.relative_base else 0) + 1)) with
  | none => simp
  | some m' =>
    simp only [Option.map_some']
    by_cases hlt : usizeOf (m.get r.pos +
        (if r.relative then m.relative_base else 0)) < m'.tape.length
    · simp [hlt]
    · simp [hlt]

/-- How `computeRaw` reacts to inputs appended at the back of the queue: a
non-pausing outcome is unchanged (with the appended inputs carried along); a
pause instead consumes the first appended input. -/
theorem Instruction.computeRaw_append (i : Instruction) (m : Intcode)
    (xs : List Int) :
    i.computeRaw { m with input := m.input ++ xs } =
      match i.computeRaw m with
      | none => none
      | some (t, RawComputeResult.Pause) =>
        (match xs with
         | [] => some (t, RawComputeResult.Pause)
         | x :: rest => some ({ t with input := rest }, RawComputeResult.Store x))
      | some (t, r) => some ({ t with input := t.input ++ xs }, r) := by
  rcases i with ⟨op, ps⟩
  simp only [Instruction.computeRaw]
  rw [show Intcode.get_parameter { m with input := m.input ++ xs } = m.get_parameter
    from rfl]
  cases op <;> rcases hps : ps.map m.get_parameter with _ | ⟨p0, _ | ⟨p1, tl⟩⟩ <;>
    cases hin : m.input <;> cases xs <;>
    simp [hin, Intcode.with_input_self] <;>
    (try (split <;> simp [hin, Intcode.with_input_self]))

theorem Instruction.computeRaw_pause_char (i : Instruction) (m t : Intcode)
    (h : i.computeRaw m = some (t, RawComputeResult.Pause)) :
    t = m ∧ m.input = [] ∧ i.op = Operation.Input := by
  rcases i with ⟨op, ps⟩
  simp only [Instruction.computeRaw] at h
  cases op <;> rcases hps : ps.map m.get_parameter with _ | ⟨p0, _ | ⟨p1, tl⟩⟩ <;>
    rw [hps] at h <;> cases hin : m.input <;> rw [hin] at h <;>
    simp_all <;> (try (split at h <;> simp_all))

theorem Instruction.computeRaw_finished (i : Instruction) (m t : Intcode)
    (raw : RawComputeResult) (h : i.computeRaw m = some (t, raw)) :
    t.finished = m.finished ∧ t.pos = m.pos ∧ t.current = m.current ∧
    t.tape = m.tape ∧ t.tape_init = m.tape_init := by
  rcases i with ⟨op, ps⟩
  simp only [Instruction.computeRaw] at h
  cases op <;> rcases hps : ps.map m.get_parameter with _ | ⟨p0, _ | ⟨p1, tl⟩⟩ <;>
    rw [hps] at h <;> cases hin : m.input <;> rw [hin] at h <;>
    simp_all <;> (try (split at h <;> simp_all)) <;>
    (try (rw [← h.1] <;> simp))

/-- `step` is the instruction-selection match followed by `stepGo`. -/
theorem Intcode.step_select (m : Intcode) :
    m.step = match (match m.current with
                    | none => m.decode m.pos
                    | some i => some i) with
      | none => none
      | some i => m.stepGo i := rfl

/-- `stepGo` on a machine with extra inputs appended: identical (carrying the
appended inputs along) whenever the step would not pause. -/
theorem Intcode.stepGo_append (m : Intcode) (xs : List Int) (i : Instruction)
    (hmf : m.finished = false)
    (hnp : ∀ m1, m.stepGo i = some (m1, false) → m1.finished = true) :
    Intcode.stepGo { m with input := m.input ++ xs } i =
      (m.stepGo i).map (fun r => ({ r.1 with input := r.1.input ++ xs }, r.2)) := by
  by_cases hbr : i.op = Operation.Break
  · simp only [Intcode.stepGo, if_pos hbr]
    simp
  · simp only [Intcode.stepGo, if_neg hbr, Instruction.compute]
    rw [Instruction.computeRaw_append]
    cases hcr : i.computeRaw m with
    | none => simp
    | some p =>
      obtain ⟨t, raw⟩ := p
      cases raw with
      | Nothing => simp [Instruction.finish]
      | JumpTo a => simp [Instruction.finish]
      | Store v =>
        simp only
        rw [Instruction.finish_map i { t with input := t.input ++ xs } t
          (RawComputeResult.Store v)]
        cases hf : i.finish t (RawComputeResult.Store v) with
        | none => simp
        | some q =>
          obtain ⟨t', res⟩ := q
          have ht' : t' = t := Instruction.finish_fst i t _ _ hf
          subst ht'
          cases res with
          | StoreAt r =>
            simp only [Option.map_some']
            rw [Intcode.store_append]
            cases hs : t'.store r with
            | none => simp
            | some t2 => simp
          | Pause =>
            exfalso
            simp only [Instruction.finish] at hf
            split at hf <;> simp_all
          | JumpTo a =>
            exfalso
            simp only [Instruction.finish] at hf
            split at hf <;> simp_all
          | Nothing =>
            exfalso
            simp only [Instruction.finish] at hf
            split at hf <;> simp_all
      | Pause =>
        obtain ⟨ht, hin, hop⟩ := Instruction.computeRaw_pause_char i m t hcr
        subst ht
        have hgo : t.stepGo i = some ({ t with current := some i }, false) := by
          simp only [Intcode.stepGo, if_neg hbr, Instruction.compute, hcr,
            Instruction.finish]
        have hcontra := hnp _ hgo
        simp at hcontra
        rw [hcontra] at hmf
        simp at hmf

/-- A non-finishing `false` return of `stepGo` is exactly the empty-queue
`Input` pause, and the post-state only caches the instruction. -/
theorem Intcode.stepGo_pause_char (m : Intcode) (i : Instruction) (m' : Intcode)
    (h : m.stepGo i = some (m', false)) (hf : m'.finished = false)
    (hmf : m.finished = false) :
    i.op = Operation.Input ∧ m.input = [] ∧ m' = { m with current := some i } := by
  by_cases hbr : i.op = Operation.Break
  · simp only [Intcode.stepGo, if_pos hbr] at h
    simp at h
    rw [← h] at hf
    simp at hf
  · simp only [Intcode.stepGo, if_neg hbr, Instruction.compute] at h
    cases hcr : i.computeRaw m with
    | none => rw [hcr] at h; simp at h
    | some p =>
      obtain ⟨t, raw⟩ := p
      rw [hcr] at h
      cases raw with
      | Pause =>
        obtain ⟨ht, hin, hop⟩ := Instruction.computeRaw_pause_char i m t hcr
        subst ht
        simp [Instruction.finish] at h
        exact ⟨hop, hin, h.symm⟩
      | JumpTo a => simp [Instruction.finish] at h
      | Nothing => simp [Instruction.finish] at h
      | Store v =>
        exfalso
        dsimp only at h
        cases hfn : i.finish t (RawComputeResult.Store v) with
        | none => rw [hfn] at h; simp at h
        | some q =>
          obtain ⟨t', res⟩ := q
          rw [hfn] at h
          cases res with
          | StoreAt r =>
            simp only at h
            cases hs : t'.store r with
            | none => rw [hs] at h; simp at h
            | some t2 => rw [hs] at h; simp at h
          | Pause =>
            simp only [Instruction.finish] at hfn
            split at hfn <;> simp_all
          | JumpTo a =>
            simp only [Instruction.finish] at hfn
            split at hfn <;> simp_all
          | Nothing =>
            simp only [Instruction.finish] at hfn
            split at hfn <;> simp_all

/-- A `true`-returning `stepGo` never changes the finished flag. -/
theorem Intcode.stepGo_finished (m : Intcode) (i : Instruction) (m1 : Intcode)
    (h : m.stepGo i = some (m1, true)) : m1.finished = m.finished := by
  by_cases hbr : i.op = Operation.Break
  · simp only [Intcode.stepGo, if_pos hbr] at h
    simp at h
  · simp only [Intcode.stepGo, if_neg hbr, Instruction.compute] at h
    cases hcr : i.computeRaw m with
    | none => rw [hcr] at h; simp at h
    | some p =>
      obtain ⟨t, raw⟩ := p
      rw [hcr] at h
      have hfr := (Instruction.computeRaw_finished i m t raw hcr).1
      cases raw with
      | Pause =>
        obtain ⟨ht, -, -⟩ := Instruction.computeRaw_pause_char i m t hcr
        subst ht
        simp [Instruction.finish] at h
      | JumpTo a =>
        simp [Instruction.finish] at h
        rw [← h]
        simpa using hfr
      | Nothing =>
        simp [Instruction.finish] at h
        rw [← h]
        simpa using hfr
      | Store v =>
        dsimp only at h
        cases hfn : i.finish t (RawComputeResult.Store v) with
        | none => rw [hfn] at h; simp at h
        | some q =>
          obtain ⟨t', res⟩ := q
          rw [hfn] at h
          have ht' : t' = t := Instruction.finish_fst i t _ _ hfn
          subst ht'
          cases res with
          | StoreAt r =>
            simp only at h
            cases hs : t'.store r with
            | none => rw [hs] at h; simp at h
            | some t2 =>
              rw [hs] at h
              simp at h
              have hsf := (Intcode.store_frame t' r t2 hs).2.2.2.2.1
              rw [← h]
              simpa using hsf.trans hfr
          | Pause =>
            simp only [Instruction.finish] at hfn
            split at hfn <;> simp_all
          | JumpTo a =>
            simp [Instruction.finish] at h
            rw [← h]
            simpa using hfr
          | Nothing =>
            simp [Instruction.finish] at h
            rw [← h]
            simpa using hfr

/-- `step` on a machine with extra inputs appended at the back: identical
(with the appended inputs carried along) whenever the step does not pause. -/
theorem Intcode.step_append_eq (m : Intcode) (xs : List Int)
    (hmf : m.finished = false)
    (hnp : ∀ m1, m.step = some (m1, false) → m1.finished = true) :
    Intcode.step { m with input := m.input ++ xs } =
      (m.step).map (fun r => ({ r.1 with input := r.1.input ++ xs }, r.2)) := by
  rw [Intcode.step_select m, Intcode.step_select { m with input := m.input ++ xs },
    Intcode.current_append, Intcode.decode_append, Intcode.pos_append]
  cases hsel : (match m.current with
      | none => m.decode m.pos
      | some i => some i) with
  | none => simp
  | some i =>
    simp only
    exact Intcode.stepGo_append m xs i hmf (fun m1 hgo =>
      hnp m1 (by rw [Intcode.step_select m, hsel]; exact hgo))

/-- A non-finishing `false` return of `step` is the empty-queue `Input` pause:
the instruction is `Input`, the queue is empty, the post-state is the
pre-state with the instruction cached, and the instruction came either from
the pending slot or fresh from the decoder. -/
theorem Intcode.step_pause_char (m m' : Intcode)
    (h : m.step = some (m', false)) (hf : m'.finished = false)
    (hmf : m.finished = false) :
    ∃ i, i.op = Operation.Input ∧ m.input = [] ∧
      m' = { m with current := some i } ∧
      (m.current = some i ∨ (m.current = none ∧ m.decode m.pos = some i)) := by
  rw [Intcode.step_select] at h
  cases hcur : m.current with
  | some i =>
    rw [hcur] at h
    simp only at h
    obtain ⟨hop, hin, hm'⟩ := Intcode.stepGo_pause_char m i m' h hf hmf
    exact ⟨i, hop, hin, hm', Or.inl rfl⟩
  | none =>
    rw [hcur] at h
    simp only at h
    cases hdec : m.decode m.pos with
    | none => rw [hdec] at h; simp at h
    | some i =>
      rw [hdec] at h
      simp only at h
      obtain ⟨hop, hin, hm'⟩ := Intcode.stepGo_pause_char m i m' h hf hmf
      exact ⟨i, hop, hin, hm', Or.inr ⟨rfl, rfl⟩⟩

/-- A `true`-returning `step` never changes the finished flag. -/
theorem Intcode.step_finished (m m1 : Intcode) (h : m.step = some (m1, true)) :
    m1.finished = m.finished := by
  rw [Intcode.step_select] at h
  cases hsel : (match m.current with
      | none => m.decode m.pos
      | some i => some i) with
  | none => rw [hsel] at h; simp at h
  | some i =>
    rw [hsel] at h
    simp only at h
    exact Intcode.stepGo_finished m i m1 h

theorem Intcode.executeFuel_congrStep (k : Nat) (m₁ m₂ : Intcode)
    (h : m₁.step = m₂.step) :
    Intcode.executeFuel (k + 1) m₁ = Intcode.executeFuel (k + 1) m₂ := by
  simp only [Intcode.executeFuel, h]

/-- Master lemma for pause/resume equivalence.  If the machine with all of
`xs` pre-appended to its queue runs to a halt within `n` steps, then the
pause/resume protocol (run, supply one input per pause, resume) reaches, in
at most `n + |xs|` steps, a machine identical up to the unconsumed inputs
still queued in the pre-supplied run. -/
theorem Intcode.executeResume_spec (N : Nat) :
    ∀ (n : Nat) (xs : List Int) (m mf : Intcode),
      n + xs.length ≤ N → m.finished = false →
      Intcode.executeFuel n { m with input := m.input ++ xs } = some mf →
      mf.finished = true →
      ∃ mf' ys, Intcode.executeResume (n + xs.length) xs m = some mf' ∧
        mf = { mf' with input := mf'.input ++ ys } := by
  induction N with
  | zero =>
    intro n xs m mf hN hfin hrun hf
    have hn : n = 0 := by omega
    subst hn
    simp [Intcode.executeFuel] at hrun
  | succ N ih =>
    intro n xs m mf hN hfin hrun hf
    cases n with
    | zero => simp [Intcode.executeFuel] at hrun
    | succ n =>
      cases hstep : m.step with
      | none =>
        have hnp : ∀ m1, m.step = some (m1, false) → m1.finished = true := by
          intro m1 h1
          rw [hstep] at h1
          simp at h1
        have happ := Intcode.step_append_eq m xs hfin hnp
        rw [hstep] at happ
        simp only [Option.map_none'] at happ
        simp only [Intcode.executeFuel] at hrun
        rw [happ] at hrun
        simp at hrun
      | some p =>
        obtain ⟨m1, b⟩ := p
        cases b with
        | true =>
          have hnp : ∀ m2, m.step = some (m2, false) → m2.finished = true := by
            intro m2 h2
            rw [hstep] at h2
            simp at h2
          have happ := Intcode.step_append_eq m xs hfin hnp
          rw [hstep] at happ
          simp only [Option.map_some'] at happ
          simp only [Intcode.executeFuel] at hrun
          rw [happ] at hrun
          dsimp only at hrun
          have hfin1 : m1.finished = false := by
            rw [Intcode.step_finished m m1 hstep]
            exact hfin
          have hfuel : (n + 1) + xs.length = (n + xs.length) + 1 := by omega
          rw [hfuel]
          simp only [Intcode.executeResume]
          rw [hstep]
          dsimp only
          exact ih n xs m1 mf (by omega) hfin1 hrun hf
        | false =>
          by_cases hf1 : m1.finished = true
          · have hnp : ∀ m2, m.step = some (m2, false) → m2.finished = true := by
              intro m2 h2
              rw [hstep] at h2
              simp at h2
              rw [← h2]
              exact hf1
            have happ := Intcode.step_append_eq m xs hfin hnp
            rw [hstep] at happ
            simp only [Option.map_some'] at happ
            simp only [Intcode.executeFuel] at hrun
            rw [happ] at hrun
            dsimp only at hrun
            have hfuel : (n + 1) + xs.length = (n + xs.length) + 1 := by omega
            rw [hfuel]
            simp only [Intcode.executeResume]
            rw [hstep]
            dsimp only
            rw [if_pos hf1]
            refine ⟨m1, xs, rfl, ?_⟩
            simp at hrun
            exact hrun.symm
          · have hf1' : m1.finished = false := by
              cases hb : m1.finished
              · rfl
              · exact absurd hb hf1
            obtain ⟨i, hop, hinm, hm1, hprov⟩ :=
              Intcode.step_pause_char m m1 hstep hf1' hfin
            cases xs with
            | nil =>
              have hM : ({ m with input := m.input ++ ([] : List Int) } : Intcode)
                  = m := by
                cases m
                simp
              rw [hM] at hrun
              simp only [Intcode.executeFuel] at hrun
              rw [hstep] at hrun
              dsimp only at hrun
              simp at hrun
              rw [hrun] at hf1'
              rw [hf1'] at hf
              simp at hf
            | cons x rest =>
              have hstep2 :
                  Intcode.step { m with current := some i, input := x :: rest } =
                  Intcode.step { m with input := x :: rest } := by
                rcases hprov with hc | ⟨hc, hd⟩
                · have heq : ({ m with current := some i, input := x :: rest } :
                      Intcode) = { m with input := x :: rest } := by
                    cases m
                    simp_all
                  rw [heq]
                · have hbr : ¬(i.op = Operation.Break) := by rw [hop]; simp
                  exact Intcode.step_cached { m with input := x :: rest } i hc hd hbr
              have hMeq : ({ m with input := m.input ++ (x :: rest) } : Intcode) =
                  { m with input := x :: rest } := by
                rw [hinm]
                rfl
              rw [hMeq] at hrun
              have hcongr := Intcode.executeFuel_congrStep n _ _ hstep2
              rw [← hcongr] at hrun
              have hsupply : ({ (m1.supply_input x) with
                  input := (m1.supply_input x).input ++ rest } : Intcode) =
                  { m with current := some i, input := x :: rest } := by
                rw [hm1]
                simp [Intcode.supply_input, hinm]
              have hrun2 : Intcode.executeFuel (n + 1) { (m1.supply_input x) with
                  input := (m1.supply_input x).input ++ rest } = some mf := by
                rw [hsupply]
                exact hrun
              have hfin2 : (m1.supply_input x).finished = false := by
                simp only [Intcode.supply_input]
                exact hf1'
              obtain ⟨mf', ys, hres, hmfeq⟩ := ih (n + 1) rest (m1.supply_input x)
                mf (by simp only [List.length_cons] at hN; omega) hfin2 hrun2 hf
              have hfuel : (n + 1) + (x :: rest).length = ((n + 1) + rest.length) + 1 := by
                simp only [List.length_cons]
                omega
              rw [hfuel]
              simp only [Intcode.executeResume]
              rw [hstep]
              dsimp only
              rw [if_neg hf1]
              exact ⟨mf', ys, hres, hmfeq⟩

/-- Claim C2 (confirmed): for any program and finite input sequence under
which the pre-supplied run halts, running with all inputs supplied up front
(via `supply_input` before `execute`) and running with pauses — `execute`,
one `supply_input` at each pause, `execute` again — produce the same final
Memory and the same output queue (the paused run also reports finished; the
only difference in machine state is that the pre-supplied run may retain
unconsumed inputs in its queue). -/
theorem pause_resume_equivalence (prog : List Int) (xs : List Int) (n : Nat)
    (mf : Intcode)
    (hrun : Intcode.executeFuel n ((Intcode.new prog).supplyAll xs) = some mf)
    (hf : mf.is_finished = true) :
    ∃ mf', Intcode.executeResume (n + xs.length) xs (Intcode.new prog) = some mf' ∧
      mf'.is_finished = true ∧ mf'.tape = mf.tape ∧ mf'.output = mf.output := by
  rw [Intcode.supplyAll_eq] at hrun
  obtain ⟨mf', ys, hres, hmfeq⟩ := Intcode.executeResume_spec (n + xs.length) n xs
    (Intcode.new prog) mf (le_refl _) rfl hrun hf
  refine ⟨mf', hres, ?_, ?_, ?_⟩
  · rw [hmfeq] at hf
    exact hf
  · rw [hmfeq]
  · rw [hmfeq]

/-- Witness for C2: the echo program `[3,0,4,0,99]` with input `[7]` halts in
3 steps when the input is pre-supplied; the pause/resume protocol reaches the
same memory `[7,0,4,0,99]` and the same output `[7]`. -/
theorem pause_resume_equivalence_witness :
    ∃ mf', Intcode.executeResume (3 + 1) [7] (Intcode.new [3, 0, 4, 0, 99]) =
        some mf' ∧
      mf'.is_finished = true ∧
      mf'.tape = (Intcode.mk [7, 0, 4, 0, 99] [3, 0, 4, 0, 99] 4 none [] [7] true
        0).tape ∧
      mf'.output = (Intcode.mk [7, 0, 4, 0, 99] [3, 0, 4, 0, 99] 4 none [] [7] true
        0).output :=
  pause_resume_equivalence [3, 0, 4, 0, 99] [7] 3
    (Intcode.mk [7, 0, 4, 0, 99] [3, 0, 4, 0, 99] 4 none [] [7] true 0)
    (by decide) (by decide)

/-! ### Claim C10: `set` patches in place and never grows the tape -/

/-- Claim C10 (confirmed): the public patch `set(addr, value)` writes only when
`addr` is strictly below the current memory length, leaving the length
unchanged and all other cells untouched; for `addr` at or beyond the length it
fails (out-of-bounds slice index) instead of growing the tape. -/
theorem set_no_growth (m : Intcode) (idx : Nat) (v : Int) :
    (idx < m.tape.length →
      ∃ m', m.set idx v = some m' ∧ m'.tape.length = m.tape.length ∧
        m'.get idx = v ∧ ∀ j : Nat, j ≠ idx → m'.get j = m.get j) ∧
    (m.tape.length ≤ idx → m.set idx v = none) := by
  constructor
  · intro h
    refine ⟨{ m with tape := m.tape.set idx v }, ?_, ?_, ?_, ?_⟩
    · simp [Intcode.set, h]
    · simp
    · simp [Intcode.get, Nat.not_le.mpr h, List.getD_eq_getElem?_getD,
        List.getElem?_set_eq_of_lt _ h]
    · intro j hj
      simp [Intcode.get, List.getD_eq_getElem?_getD, List.getElem?_set_ne (Ne.symm hj)]
  · intro h
    simp [Intcode.set, Nat.not_lt.mpr h]

/-- Witness for C10 at a concrete machine. -/
theorem set_no_growth_witness :
    (∃ m', (Intcode.new [5, 6]).set 1 9 = some m' ∧
      m'.tape.length = (Intcode.new [5, 6]).tape.length ∧ m'.get 1 = 9 ∧
      ∀ j : Nat, j ≠ 1 → m'.get j = (Intcode.new [5, 6]).get j) ∧
    (Intcode.new [5, 6]).set 2 9 = none :=
  ⟨(set_no_growth (Intcode.new [5, 6]) 1 9).1 (by decide),
   (set_no_growth (Intcode.new [5, 6]) 2 9).2 (by decide)⟩

/-! ### Claim C6: what `reset` actually restores -/

/-- Claim C6 (counterexample): `reset()` does **not** set the relative base
back to 0 and does **not** clear the pending-instruction slot.  Running
`[109,5,99]` to its halt leaves relative base 5, and `reset` keeps it; running
`[3,0,99]` with no input pauses with a cached `Input` instruction, and `reset`
keeps that too. -/
theorem reset_keeps_base_and_pending_cex :
    Option.map (fun m => m.reset.relative_base)
      (Intcode.executeFuel 2 (Intcode.new [109, 5, 99])) = some 5 ∧
    Option.map (fun m => m.reset.relative_base)
      (Intcode.executeFuel 2 (Intcode.new [109, 5, 99])) ≠ some 0 ∧
    Option.map (fun m => m.reset.current)
      (Intcode.executeFuel 1 (Intcode.new [3, 0, 99])) =
      some (some (Instruction.mk Operation.Input [Parameter.PositionAt 1])) := by
  decide

/-- Claim C6 (corrected): `reset()` restores Memory to the initial snapshot,
sets the program counter to 0 and the lifecycle state to Running, but leaves
the relative base, the pending-instruction slot and both I/O queues exactly as
they were. -/
theorem reset_amended (m : Intcode) :
    m.reset.tape = m.tape_init ∧ m.reset.pos = 0 ∧ m.reset.finished = false ∧
    m.reset.relative_base = m.relative_base ∧ m.reset.current = m.current ∧
    m.reset.input = m.input ∧ m.reset.output = m.output ∧
    m.reset.tape_init = m.tape_init := by
  simp [Intcode.reset]

/-! ### Claim C9: `[1,0,0,0,99]` after one step -/

/-- Claim C9 (counterexample): after one `step()` of `[1,0,0,0,99]` the cell
at address 0 is indeed 2, but the machine is **not** halted —
`is_finished()` is still false; the `Break` at position 4 is only executed by
a second step. -/
theorem one_step_not_halted_cex :
    Option.map (fun p => p.1.get 0) (Intcode.new [1, 0, 0, 0, 99]).step = some 2 ∧
    Option.map (fun p => p.1.is_finished) (Intcode.new [1, 0, 0, 0, 99]).step ≠
      some true := by
  decide

/-- Claim C9 (corrected): for `[1,0,0,0,99]`, one `step()` leaves `Memory[0] = 2`
with the machine still running; the machine reports finished after the second
step, with `Memory[0]` still 2. -/
theorem simple_arithmetic_amended :
    Option.map (fun p => (p.1.get 0, p.1.is_finished))
      (Intcode.new [1, 0, 0, 0, 99]).step = some (2, false) ∧
    Option.map (fun m => (m.get 0, m.is_finished))
      (Intcode.executeFuel 2 (Intcode.new [1, 0, 0, 0, 99])) = some (2, true) := by
  decide

end Day17
